import Mathlib

/-!
A verification development for the receipt-aggregation and report-generation
core of citygross.py (functions parse_receipts and list_of_purchases).

The JSON values handled by the script are embedded as follows: a receipt is a
record with its list of item lines; each item line may lack any of its fields
(a missing key in the JSON object is None here), which models the dynamic
dict accesses of the source.  Python dict access item[key] raising
KeyError(key) is modelled by Except String, the error being the missing key.
Numbers are embedded as integers.  The insertion-ordered Python dict
all_items is modelled as an association list in insertion order.
-/

namespace CityGross

/-- The article object nested in an item line: fields itemNumber, itemText. -/
structure RawArticle where
  itemNumber : Option String
  itemText : Option String
  deriving DecidableEq

/-- One item line of a receipt: fields article, unitPrice, total. -/
structure RawItem where
  article : Option RawArticle
  unitPrice : Option Int
  total : Option Int
  deriving DecidableEq

/-- A receipt: field items, the list of item lines. -/
structure RawReceipt where
  items : List RawItem
  deriving DecidableEq

/-- The Purchase namedtuple of the source: unit_price, total_price. -/
structure Purchase where
  unit_price : Int
  total_price : Int
  deriving DecidableEq

/-- The Article namedtuple of the source: name, purchases. -/
structure Article where
  name : String
  purchases : List Purchase
  deriving DecidableEq

/-- The four fields the loop body of parse_receipts reads out of one item
line, in source order: article itemNumber, article itemText, unitPrice,
total. -/
structure LineItem where
  itemNumber : String
  itemText : String
  unitPrice : Int
  total : Int
  deriving DecidableEq

/-- Python dict access d[key]: returns the value or raises KeyError(key). -/
def req {α : Type} (key : String) : Option α → Except String α
  | some a => Except.ok a
  | none => Except.error key

/-- The field reads performed by the loop body of parse_receipts for one item
line, in the order the source performs them.  The first absent key aborts
with that key, exactly as the first failing dict access does in Python. -/
def extractLine (it : RawItem) : Except String LineItem := do
  let art ← req "article" it.article
  let num ← req "itemNumber" art.itemNumber
  let txt ← req "itemText" art.itemText
  let up ← req "unitPrice" it.unitPrice
  let tot ← req "total" it.total
  pure ⟨num, txt, up, tot⟩

/-- The body of the inner loop of parse_receipts acting on the aggregation
map: if article_number is not yet a key, add Article(article_text, []) at the
end (Python dicts append new keys in insertion order); then append
Purchase(unitPrice, total) to the purchases of the entry at that key. -/
def insertLine (m : List (String × Article)) (li : LineItem) : List (String × Article) :=
  let p : Purchase := ⟨li.unitPrice, li.total⟩
  let m1 := if m.any (fun e => e.1 = li.itemNumber) then m
    else m ++ [(li.itemNumber, ⟨li.itemText, []⟩)]
  m1.map (fun e => if e.1 = li.itemNumber then (e.1, ⟨e.2.name, e.2.purchases ++ [p]⟩) else e)

/-- parse_receipts(data): two nested loops over receipts and their item
lines, building the aggregation map; the first missing key aborts the whole
parse with that KeyError.  (The source interleaves the unitPrice and total
reads with the creation of a fresh Article; since a raised KeyError discards
the whole map, reading all four fields before touching the map is
observationally the same.) -/
def parse_receipts (data : List RawReceipt) : Except String (List (String × Article)) :=
  data.foldlM (fun m receipt =>
    receipt.items.foldlM (fun m it => do
      let li ← extractLine it
      pure (insertLine m li)) m) []

/-- Three-way comparison from a linear order, mirroring how Python compares
two numbers, characters or other primitives. -/
def cmpO {α : Type} [LinearOrder α] (a b : α) : Ordering :=
  if a < b then Ordering.lt else if b < a then Ordering.gt else Ordering.eq

/-- Lexicographic comparison of lists, mirroring Python list and tuple
comparison. -/
def cmpList {α : Type} (cmp : α → α → Ordering) : List α → List α → Ordering
  | [], [] => Ordering.eq
  | [], _ :: _ => Ordering.lt
  | _ :: _, [] => Ordering.gt
  | a :: as, b :: bs => (cmp a b).then (cmpList cmp as bs)

/-- Python string comparison: lexicographic over the code points. -/
def cmpString (a b : String) : Ordering := cmpList cmpO a.data b.data

/-- Python comparison of two Purchase namedtuples: by unit_price, then by
total_price. -/
def Purchase.cmp (p q : Purchase) : Ordering :=
  (cmpO p.unit_price q.unit_price).then (cmpO p.total_price q.total_price)

/-- Python comparison of two Article namedtuples: by name first, then by the
purchases lists compared lexicographically. -/
def Article.cmp (a b : Article) : Ordering :=
  (cmpString a.name b.name).then (cmpList Purchase.cmp a.purchases b.purchases)

/-- The weak order used by sorted(receipts): a precedes or equals b. -/
def articleLE (a b : Article) : Bool := Article.cmp a b != Ordering.gt

/-- Insert an element into an already sorted list, after every element that
compares less-or-equal to it. -/
def sortedInsert {α : Type} (le : α → α → Bool) (a : α) : List α → List α
  | [] => [a]
  | b :: bs => if le b a then b :: sortedInsert le a bs else a :: b :: bs

/-- Python sorted(): a stable sort of the list with respect to the order.
Stable insertion sort is extensionally the unique stable sort, hence a
faithful model of the built-in. -/
def pySorted {α : Type} (le : α → α → Bool) (l : List α) : List α :=
  l.foldl (fun acc a => sortedInsert le a acc) []

/-- One row yielded by list_of_purchases. -/
structure Row where
  purchase_count : Nat
  item_name : String
  total_price : Int
  unit_prices : String
  deriving DecidableEq

/-- The body of the loop of list_of_purchases for one article. -/
def rowOf (article : Article) : Row where
  purchase_count := article.purchases.length
  item_name := article.name
  total_price := (article.purchases.map Purchase.total_price).sum
  unit_prices := String.intercalate ", " (article.purchases.map (fun x => toString x.unit_price))

/-- list_of_purchases(receipts): sort the articles and yield one row each. -/
def list_of_purchases (receipts : List Article) : List Row :=
  (pySorted articleLE receipts).map rowOf

/-- The rows handed to tabulate: list_of_purchases(receipts.values()), where
receipts is the parsed aggregation map. -/
def report (data : List RawReceipt) : Except String (List Row) :=
  (parse_receipts data).map (fun m => list_of_purchases (m.map Prod.snd))

/-- All item lines of the input, across all receipts, in input order. -/
def flattenItems (data : List RawReceipt) : List RawItem :=
  (data.map RawReceipt.items).flatten

/-- The article itemNumber of a raw item line, when present. -/
def itemNumberOf (it : RawItem) : Option String :=
  it.article.bind RawArticle.itemNumber

/-- How many item lines across all receipts carry the given item number. -/
def countLines (data : List RawReceipt) (num : String) : Nat :=
  ((flattenItems data).filter (fun it => itemNumberOf it = some num)).length

/-- The set of distinct item numbers occurring across all item lines. -/
def distinctItemNumbers (data : List RawReceipt) : Finset String :=
  ((flattenItems data).filterMap itemNumberOf).toFinset

/-- The string forms of the unit prices of the lines carrying the given item
number, in input order. -/
def rawUnitPriceStrings (data : List RawReceipt) (num : String) : List String :=
  ((flattenItems data).filter (fun it => itemNumberOf it = some num)).filterMap
    (fun it => it.unitPrice.map toString)

/-- Whether the field reads for this item line fail (a KeyError in Python). -/
def failsExtract (it : RawItem) : Bool :=
  match extractLine it with
  | Except.error _ => true
  | Except.ok _ => false

/-- Extract every item line in order, stopping at the first missing key. -/
def extractAll : List RawItem → Except String (List LineItem)
  | [] => Except.ok []
  | it :: rest => do
    let li ← extractLine it
    let ls ← extractAll rest
    pure (li :: ls)

/-- Lookup in the aggregation map, modelling all_items[article_number]. -/
def findArt (m : List (String × Article)) (num : String) : Option Article :=
  (m.find? (fun e => e.1 = num)).map Prod.snd

/-- The Purchase built from one extracted item line. -/
def toPurchase (li : LineItem) : Purchase := ⟨li.unitPrice, li.total⟩

/-- The purchases contributed by the lines carrying the given item number,
in input order. -/
def purchasesFor (lines : List LineItem) (num : String) : List Purchase :=
  (lines.filter (fun li => li.itemNumber = num)).map toPurchase

/-- The field reads of this raw item line succeed with this extracted line. -/
def extractOk (it : RawItem) (li : LineItem) : Prop :=
  extractLine it = Except.ok li

/-- The properties that make a three-way comparison a linear order, shared by
every comparison Python performs while sorting the articles. -/
structure LawfulCmp {α : Type} (cmp : α → α → Ordering) : Prop where
  eq_iff : ∀ a b, cmp a b = Ordering.eq ↔ a = b
  gt_iff : ∀ a b, cmp a b = Ordering.gt ↔ cmp b a = Ordering.lt
  lt_trans : ∀ a b c, cmp a b = Ordering.lt → cmp b c = Ordering.lt →
    cmp a c = Ordering.lt

/-- Concrete inputs: the item lines of the two-receipt scenario of the spec. -/
def milkItem1 : RawItem := ⟨some ⟨some "A1", some "Milk"⟩, some 10, some 10⟩

/-- Second Milk line, unit price and total 12. -/
def milkItem2 : RawItem := ⟨some ⟨some "A1", some "Milk"⟩, some 12, some 12⟩

/-- The two-receipt scenario input of the spec. -/
def c2data : List RawReceipt := [⟨[milkItem1]⟩, ⟨[milkItem2]⟩]

/-- The article the two-receipt scenario accumulates for item number A1. -/
def milkArticle : Article := ⟨"Milk", [⟨10, 10⟩, ⟨12, 12⟩]⟩

/-- The aggregation map of the two-receipt scenario. -/
def c2map : List (String × Article) := [("A1", milkArticle)]

/-- An item line whose unitPrice key is absent. -/
def badItem : RawItem := ⟨some ⟨some "B2", some "Bread"⟩, none, some 10⟩

/-- A receipt holding only the malformed item line. -/
def badReceipt : RawReceipt := ⟨[badItem]⟩

/-- A well-formed one-line receipt. -/
def goodReceipt : RawReceipt := ⟨[milkItem1]⟩

/-- Input whose malformed line sits in the receipt at index 0. -/
def c7dataA : List RawReceipt := [badReceipt, goodReceipt]

/-- Input whose malformed line sits in the receipt at index 1. -/
def c7dataB : List RawReceipt := [goodReceipt, badReceipt]

/-! ### Lawfulness of the comparisons behind sorted() -/

theorem cmpO_eq_lt {α : Type} [LinearOrder α] {a b : α} :
    cmpO a b = Ordering.lt ↔ a < b := by
  unfold cmpO
  split_ifs with h1 h2 <;> simp [h1]

theorem cmpO_eq_gt {α : Type} [LinearOrder α] {a b : α} :
    cmpO a b = Ordering.gt ↔ b < a := by
  unfold cmpO
  split_ifs with h1 h2
  · simp [h1.asymm]
  · simp [h2]
  · simp [h2]

theorem cmpO_eq_eq {α : Type} [LinearOrder α] {a b : α} :
    cmpO a b = Ordering.eq ↔ a = b := by
  unfold cmpO
  split_ifs with h1 h2
  · simp [h1.ne]
  · simp [h2.ne']
  · simp [le_antisymm (not_lt.mp h2) (not_lt.mp h1)]

theorem lawful_cmpO {α : Type} [LinearOrder α] : LawfulCmp (cmpO (α := α)) where
  eq_iff _ _ := cmpO_eq_eq
  gt_iff _ _ := by rw [cmpO_eq_gt, cmpO_eq_lt]
  lt_trans _ _ _ h1 h2 := cmpO_eq_lt.mpr ((cmpO_eq_lt.mp h1).trans (cmpO_eq_lt.mp h2))

theorem LawfulCmp.refl {α : Type} {cmp : α → α → Ordering} (h : LawfulCmp cmp)
    (a : α) : cmp a a = Ordering.eq :=
  (h.eq_iff a a).mpr rfl

theorem LawfulCmp.comp {α β γ : Type} {cmpb : β → β → Ordering}
    {cmpc : γ → γ → Ordering} (hb : LawfulCmp cmpb) (hc : LawfulCmp cmpc)
    {f : α → β} {g : α → γ} (inj : ∀ a a₂, f a = f a₂ → g a = g a₂ → a = a₂) :
    LawfulCmp (fun x y => (cmpb (f x) (f y)).then (cmpc (g x) (g y))) where
  eq_iff a b := by
    constructor
    · intro h
      rcases hfe : cmpb (f a) (f b) with _ | _ | _ <;> rw [hfe] at h <;>
        simp [Ordering.then] at h
      exact inj a b ((hb.eq_iff _ _).mp hfe) ((hc.eq_iff _ _).mp h)
    · intro hab
      subst hab
      simp [hb.refl, hc.refl, Ordering.then]
  gt_iff a b := by
    constructor
    · intro h
      rcases hfe : cmpb (f a) (f b) with _ | _ | _ <;> rw [hfe] at h <;>
        simp [Ordering.then] at h
      · have he : f b = f a := ((hb.eq_iff _ _).mp hfe).symm
        rw [(hb.eq_iff (f b) (f a)).mpr he]
        simp only [Ordering.then]
        exact (hc.gt_iff _ _).mp h
      · rw [(hb.gt_iff _ _).mp hfe]
        simp [Ordering.then]
    · intro h
      rcases hfe : cmpb (f b) (f a) with _ | _ | _ <;> rw [hfe] at h <;>
        simp [Ordering.then] at h
      · rw [(hb.gt_iff (f a) (f b)).mpr hfe]
        simp [Ordering.then]
      · have he : f a = f b := ((hb.eq_iff _ _).mp hfe).symm
        rw [(hb.eq_iff (f a) (f b)).mpr he]
        simp only [Ordering.then]
        exact (hc.gt_iff _ _).mpr h
  lt_trans a b c h1 h2 := by
    have split1 : cmpb (f a) (f b) = Ordering.lt ∨
        (f a = f b ∧ cmpc (g a) (g b) = Ordering.lt) := by
      cases hfe : cmpb (f a) (f b) <;> simp only [hfe, Ordering.then] at h1
      · exact Or.inl rfl
      · exact Or.inr ⟨(hb.eq_iff _ _).mp hfe, h1⟩
      · exact absurd h1 (by simp)
    have split2 : cmpb (f b) (f c) = Ordering.lt ∨
        (f b = f c ∧ cmpc (g b) (g c) = Ordering.lt) := by
      cases hfe : cmpb (f b) (f c) <;> simp only [hfe, Ordering.then] at h2
      · exact Or.inl rfl
      · exact Or.inr ⟨(hb.eq_iff _ _).mp hfe, h2⟩
      · exact absurd h2 (by simp)
    rcases split1 with hb1 | ⟨he1, hg1⟩ <;> rcases split2 with hb2 | ⟨he2, hg2⟩
    · have := hb.lt_trans _ _ _ hb1 hb2
      simp [this, Ordering.then]
    · rw [← he2]
      simp [hb1, Ordering.then]
    · rw [he1]
      simp [hb2, Ordering.then]
    · rw [he1, he2]
      have hcc : cmpc (g a) (g c) = Ordering.lt := hc.lt_trans _ _ _ hg1 hg2
      simp [(hb.eq_iff (f c) (f c)).mpr rfl, hcc, Ordering.then]

theorem LawfulCmp.comap {α β : Type} {cmp : β → β → Ordering}
    (h : LawfulCmp cmp) (f : α → β) (hf : ∀ a b, f a = f b → a = b) :
    LawfulCmp (fun a b => cmp (f a) (f b)) where
  eq_iff a b := by
    constructor
    · intro he
      exact hf a b ((h.eq_iff _ _).mp he)
    · intro he
      subst he
      exact h.refl _
  gt_iff a b := h.gt_iff (f a) (f b)
  lt_trans a b c := h.lt_trans (f a) (f b) (f c)

theorem cmpList_eq_eq {α : Type} {cmp : α → α → Ordering} (h : LawfulCmp cmp) :
    ∀ as bs : List α, cmpList cmp as bs = Ordering.eq ↔ as = bs := by
  intro as
  induction as with
  | nil =>
    intro bs
    cases bs <;> simp [cmpList]
  | cons a as ih =>
    intro bs
    cases bs with
    | nil => simp [cmpList]
    | cons b bs =>
      constructor
      · intro he
        rcases hfe : cmp a b with _ | _ | _ <;>
          rw [show cmpList cmp (a :: as) (b :: bs) =
            (cmp a b).then (cmpList cmp as bs) from rfl, hfe] at he <;>
          simp [Ordering.then] at he
        have h1 : a = b := (h.eq_iff a b).mp hfe
        have h2 : as = bs := (ih bs).mp he
        rw [h1, h2]
      · intro he
        injection he with h1 h2
        subst h1
        subst h2
        show (cmp a a).then (cmpList cmp as as) = Ordering.eq
        rw [h.refl, (ih as).mpr rfl]
        rfl

theorem cmpList_gt_iff {α : Type} {cmp : α → α → Ordering} (h : LawfulCmp cmp) :
    ∀ as bs : List α, cmpList cmp as bs = Ordering.gt ↔
      cmpList cmp bs as = Ordering.lt := by
  intro as
  induction as with
  | nil =>
    intro bs
    cases bs <;> simp [cmpList]
  | cons a as ih =>
    intro bs
    cases bs with
    | nil => simp [cmpList]
    | cons b bs =>
      show (cmp a b).then (cmpList cmp as bs) = Ordering.gt ↔
        (cmp b a).then (cmpList cmp bs as) = Ordering.lt
      rcases hfe : cmp a b with _ | _ | _
      · rw [(h.gt_iff b a).mpr hfe]
        simp [Ordering.then]
      · have hba : cmp b a = Ordering.eq := (h.eq_iff b a).mpr
          (((h.eq_iff a b).mp hfe).symm)
        rw [hba]
        simp only [Ordering.then]
        exact ih bs
      · rw [(h.gt_iff a b).mp hfe]
        simp [Ordering.then]

theorem cmpList_lt_trans {α : Type} {cmp : α → α → Ordering} (h : LawfulCmp cmp) :
    ∀ as bs cs : List α, cmpList cmp as bs = Ordering.lt →
      cmpList cmp bs cs = Ordering.lt → cmpList cmp as cs = Ordering.lt := by
  intro as
  induction as with
  | nil =>
    intro bs cs h1 h2
    cases bs with
    | nil => simp [cmpList] at h1
    | cons b bs =>
      cases cs with
      | nil => simp [cmpList] at h2
      | cons c cs => simp [cmpList]
  | cons a as ih =>
    intro bs cs h1 h2
    cases bs with
    | nil => simp [cmpList] at h1
    | cons b bs =>
      cases cs with
      | nil => simp [cmpList] at h2
      | cons c cs =>
        rw [show cmpList cmp (a :: as) (b :: bs) =
          (cmp a b).then (cmpList cmp as bs) from rfl] at h1
        rw [show cmpList cmp (b :: bs) (c :: cs) =
          (cmp b c).then (cmpList cmp bs cs) from rfl] at h2
        show (cmp a c).then (cmpList cmp as cs) = Ordering.lt
        have split1 : cmp a b = Ordering.lt ∨
            (a = b ∧ cmpList cmp as bs = Ordering.lt) := by
          rcases hfe : cmp a b with _ | _ | _ <;> rw [hfe] at h1 <;>
            simp [Ordering.then] at h1
          · exact Or.inl rfl
          · exact Or.inr ⟨(h.eq_iff a b).mp hfe, h1⟩
        have split2 : cmp b c = Ordering.lt ∨
            (b = c ∧ cmpList cmp bs cs = Ordering.lt) := by
          rcases hfe : cmp b c with _ | _ | _ <;> rw [hfe] at h2 <;>
            simp [Ordering.then] at h2
          · exact Or.inl rfl
          · exact Or.inr ⟨(h.eq_iff b c).mp hfe, h2⟩
        rcases split1 with hab | ⟨he1, hl1⟩ <;> rcases split2 with hbc | ⟨he2, hl2⟩
        · rw [h.lt_trans a b c hab hbc]
          rfl
        · rw [← he2, hab]
          rfl
        · rw [he1, hbc]
          rfl
        · rw [he1, he2, h.refl]
          simp only [Ordering.then]
          exact ih bs cs hl1 hl2

theorem lawful_cmpList {α : Type} {cmp : α → α → Ordering} (h : LawfulCmp cmp) :
    LawfulCmp (cmpList cmp) where
  eq_iff := cmpList_eq_eq h
  gt_iff := cmpList_gt_iff h
  lt_trans := cmpList_lt_trans h

theorem lawful_cmpString : LawfulCmp cmpString :=
  (lawful_cmpList lawful_cmpO).comap String.data
    (fun a b hd => by cases a; cases b; simp only at hd; rw [hd])

theorem lawful_purchase_cmp : LawfulCmp Purchase.cmp :=
  LawfulCmp.comp lawful_cmpO lawful_cmpO
    (f := Purchase.unit_price) (g := Purchase.total_price)
    (fun p q h1 h2 => by cases p; cases q; simp at h1 h2; rw [h1, h2])

theorem lawful_article_cmp : LawfulCmp Article.cmp :=
  LawfulCmp.comp lawful_cmpString (lawful_cmpList lawful_purchase_cmp)
    (f := Article.name) (g := Article.purchases)
    (fun a b h1 h2 => by cases a; cases b; simp at h1 h2; rw [h1, h2])

/-! ### The order sorted() uses on articles -/

theorem LawfulCmp.le_total {α : Type} {cmp : α → α → Ordering}
    (h : LawfulCmp cmp) (a b : α) :
    cmp a b ≠ Ordering.gt ∨ cmp b a ≠ Ordering.gt := by
  rcases hfe : cmp a b with _ | _ | _
  · exact Or.inl (by simp)
  · exact Or.inl (by simp)
  · refine Or.inr ?_
    rw [(h.gt_iff a b).mp hfe]
    simp

theorem LawfulCmp.le_trans {α : Type} {cmp : α → α → Ordering}
    (h : LawfulCmp cmp) {a b c : α} (h1 : cmp a b ≠ Ordering.gt)
    (h2 : cmp b c ≠ Ordering.gt) : cmp a c ≠ Ordering.gt := by
  rcases hab : cmp a b with _ | _ | _
  · rcases hbc : cmp b c with _ | _ | _
    · rw [h.lt_trans a b c hab hbc]
      simp
    · rw [← (h.eq_iff b c).mp hbc, hab]
      simp
    · exact absurd hbc h2
  · rw [(h.eq_iff a b).mp hab]
    exact h2
  · exact absurd hab h1

theorem articleLE_iff {a b : Article} :
    articleLE a b = true ↔ Article.cmp a b ≠ Ordering.gt := by
  show (Article.cmp a b != Ordering.gt) = true ↔ _
  rcases h : Article.cmp a b with _ | _ | _ <;> decide

theorem articleLE_total (a b : Article) :
    articleLE a b = true ∨ articleLE b a = true := by
  rcases lawful_article_cmp.le_total a b with h | h
  · exact Or.inl (articleLE_iff.mpr h)
  · exact Or.inr (articleLE_iff.mpr h)

theorem articleLE_trans {a b c : Article} (h1 : articleLE a b = true)
    (h2 : articleLE b c = true) : articleLE a c = true :=
  articleLE_iff.mpr
    (lawful_article_cmp.le_trans (articleLE_iff.mp h1) (articleLE_iff.mp h2))

theorem cmpList_cmpO_lt_iff_lex {α : Type} [LinearOrder α] :
    ∀ xs ys : List α, cmpList cmpO xs ys = Ordering.lt ↔
      List.Lex (· < ·) xs ys := by
  intro xs
  induction xs with
  | nil =>
    intro ys
    cases ys with
    | nil => simp [cmpList]
    | cons y ys =>
      simp only [cmpList]
      exact ⟨fun _ => List.Lex.nil, fun _ => trivial⟩
  | cons x xs ih =>
    intro ys
    cases ys with
    | nil =>
      simp only [cmpList]
      constructor
      · intro h
        exact absurd h (by simp)
      · intro h
        exact absurd h (List.Lex.not_nil_right _ _)
    | cons y ys =>
      show (cmpO x y).then (cmpList cmpO xs ys) = Ordering.lt ↔ _
      constructor
      · intro h
        rcases hfe : cmpO x y with _ | _ | _ <;> rw [hfe] at h <;>
          simp [Ordering.then] at h
        · exact List.Lex.rel (cmpO_eq_lt.mp hfe)
        · rw [cmpO_eq_eq.mp hfe]
          exact List.Lex.cons ((ih ys).mp h)
      · intro h
        cases h with
        | rel hr =>
          rw [cmpO_eq_lt.mpr hr]
          rfl
        | cons hl =>
          rw [(cmpO_eq_eq (a := x)).mpr rfl]
          simp only [Ordering.then]
          exact (ih ys).mpr hl

theorem cmpString_lt {a b : String} (h : cmpString a b = Ordering.lt) : a < b := by
  rw [String.lt_iff_toList_lt]
  exact (cmpList_cmpO_lt_iff_lex a.data b.data).mp h

theorem articleLE_name_le {a b : Article} (h : articleLE a b = true) :
    a.name ≤ b.name := by
  have hcmp : Article.cmp a b ≠ Ordering.gt := articleLE_iff.mp h
  have hname : cmpString a.name b.name ≠ Ordering.gt := by
    intro hg
    apply hcmp
    show (cmpString a.name b.name).then _ = Ordering.gt
    rw [hg]
    rfl
  rcases hfe : cmpString a.name b.name with _ | _ | _
  · exact le_of_lt (cmpString_lt hfe)
  · exact le_of_eq ((lawful_cmpString.eq_iff _ _).mp hfe)
  · exact absurd hfe hname

/-! ### The stable sort behind sorted() -/

theorem mem_sortedInsert {α : Type} (le : α → α → Bool) (a x : α) :
    ∀ l : List α, x ∈ sortedInsert le a l ↔ x = a ∨ x ∈ l := by
  intro l
  induction l with
  | nil => simp [sortedInsert]
  | cons b bs ih =>
    show x ∈ (if le b a then b :: sortedInsert le a bs else a :: b :: bs) ↔ _
    split
    · simp only [List.mem_cons, ih]
      tauto
    · simp only [List.mem_cons]

theorem pairwise_sortedInsert {α : Type} {le : α → α → Bool}
    (htot : ∀ a b, le a b = true ∨ le b a = true)
    (htr : ∀ a b c, le a b = true → le b c = true → le a c = true) (a : α) :
    ∀ l : List α, l.Pairwise (fun x y => le x y = true) →
      (sortedInsert le a l).Pairwise (fun x y => le x y = true) := by
  intro l
  induction l with
  | nil =>
    intro _
    simp [sortedInsert]
  | cons b bs ih =>
    intro h
    rcases List.pairwise_cons.mp h with ⟨hb, hbs⟩
    show (if le b a then b :: sortedInsert le a bs else a :: b :: bs).Pairwise _
    split
    · refine List.pairwise_cons.mpr ⟨?_, ih hbs⟩
      intro y hy
      rcases (mem_sortedInsert le a y bs).mp hy with rfl | hy
      · assumption
      · exact hb y hy
    · refine List.pairwise_cons.mpr ⟨?_, h⟩
      intro y hy
      have hab : le a b = true := by
        rcases htot a b with hh | hh
        · exact hh
        · exact absurd hh (by assumption)
      rcases List.mem_cons.mp hy with rfl | hy
      · exact hab
      · exact htr a b y hab (hb y hy)

theorem pairwise_pySorted {α : Type} {le : α → α → Bool}
    (htot : ∀ a b, le a b = true ∨ le b a = true)
    (htr : ∀ a b c, le a b = true → le b c = true → le a c = true)
    (l : List α) : (pySorted le l).Pairwise (fun x y => le x y = true) := by
  suffices haux : ∀ acc : List α, acc.Pairwise (fun x y => le x y = true) →
      (l.foldl (fun acc a => sortedInsert le a acc) acc).Pairwise
        (fun x y => le x y = true) from haux [] List.Pairwise.nil
  induction l with
  | nil =>
    intro acc hacc
    exact hacc
  | cons a as ih =>
    intro acc hacc
    exact ih (sortedInsert le a acc) (pairwise_sortedInsert htot htr a acc hacc)

theorem length_sortedInsert {α : Type} (le : α → α → Bool) (a : α) :
    ∀ l : List α, (sortedInsert le a l).length = l.length + 1 := by
  intro l
  induction l with
  | nil => rfl
  | cons b bs ih =>
    show (if le b a then b :: sortedInsert le a bs else a :: b :: bs).length = _
    split
    · simp [ih]
    · simp

theorem length_pySorted {α : Type} (le : α → α → Bool) (l : List α) :
    (pySorted le l).length = l.length := by
  suffices haux : ∀ acc : List α,
      (l.foldl (fun acc a => sortedInsert le a acc) acc).length =
        acc.length + l.length from by simpa using haux []
  induction l with
  | nil =>
    intro acc
    simp
  | cons a as ih =>
    intro acc
    show (as.foldl _ (sortedInsert le a acc)).length = _
    rw [ih (sortedInsert le a acc), length_sortedInsert]
    simp only [List.length_cons]
    omega

/-! ### Characterising the aggregation map built by parse_receipts -/

theorem findArt_append (m1 m2 : List (String × Article)) (num : String) :
    findArt (m1 ++ m2) num = (findArt m1 num).or (findArt m2 num) := by
  cases h : m1.find? (fun e => e.1 = num) <;>
    simp [findArt, List.find?_append, h, Option.or]

theorem any_eq_findArt_isSome (m : List (String × Article)) (num : String) :
    m.any (fun e => e.1 = num) = (findArt m num).isSome := by
  induction m with
  | nil => rfl
  | cons e es ih =>
    by_cases he : e.1 = num
    · simp [findArt, List.find?_cons_of_pos, he]
    · have hne : ¬(decide (e.1 = num) = true) := by simp [he]
      simp only [List.any_cons, findArt, List.find?_cons_of_neg _ hne]
      simp only [findArt] at ih
      simp [he, ih]

theorem findArt_map_upd (m : List (String × Article)) (key : String)
    (p : Purchase) (num : String) :
    findArt (m.map (fun e => if e.1 = key
        then (e.1, Article.mk e.2.name (e.2.purchases ++ [p]))
        else e)) num =
      if num = key
      then (findArt m num).map
        (fun a => Article.mk a.name (a.purchases ++ [p]))
      else findArt m num := by
  induction m with
  | nil => simp [findArt]
  | cons e es ih =>
    by_cases he : e.1 = num
    · by_cases hl : e.1 = key
      · have hnum : num = key := he ▸ hl
        simp [findArt, List.find?_cons_of_pos, he, hl, hnum]
      · have hnum : ¬(num = key) := fun hh => hl (he.trans hh)
        simp [findArt, List.find?_cons_of_pos, he, hl, hnum]
    · have hne1 : ¬((if e.1 = key
          then (e.1, Article.mk e.2.name (e.2.purchases ++ [p]))
          else e).1 = num) := by
        split <;> exact he
      simp only [List.map_cons, findArt, List.find?_cons_of_neg,
        hne1, he, decide_eq_true_eq, not_false_iff]
      simp only [findArt] at ih
      exact ih

theorem findArt_insertLine_self (m : List (String × Article)) (li : LineItem) :
    findArt (insertLine m li) li.itemNumber =
      some (match findArt m li.itemNumber with
        | some a => Article.mk a.name (a.purchases ++ [toPurchase li])
        | none => Article.mk li.itemText [toPurchase li]) := by
  show findArt ((if m.any (fun e => e.1 = li.itemNumber) then m
      else m ++ [(li.itemNumber, Article.mk li.itemText [])]).map _) _ = _
  rw [findArt_map_upd, if_pos rfl, any_eq_findArt_isSome]
  cases h : findArt m li.itemNumber with
  | some a => simp [h, toPurchase]
  | none =>
    simp only [Option.isSome_none, Bool.false_eq_true, if_false]
    rw [findArt_append, h]
    simp [findArt, List.find?_cons, toPurchase, Option.or]

theorem findArt_insertLine_ne (m : List (String × Article)) (li : LineItem)
    (num : String) (h : num ≠ li.itemNumber) :
    findArt (insertLine m li) num = findArt m num := by
  show findArt ((if m.any (fun e => e.1 = li.itemNumber) then m
      else m ++ [(li.itemNumber, Article.mk li.itemText [])]).map _) _ = _
  rw [findArt_map_upd, if_neg h]
  split
  · rfl
  · rw [findArt_append]
    have hne : ¬ li.itemNumber = num := fun hh => h hh.symm
    have hsingle : findArt [(li.itemNumber, Article.mk li.itemText [])] num = none := by
      simp [findArt, List.find?_cons, hne]
    rw [hsingle]
    cases findArt m num <;> rfl

theorem findArt_foldl (lines : List LineItem) :
    ∀ (m : List (String × Article)) (num : String),
    findArt (lines.foldl insertLine m) num =
      match findArt m num, lines.find? (fun li => li.itemNumber = num) with
      | some a, _ => some (Article.mk a.name (a.purchases ++ purchasesFor lines num))
      | none, some li => some (Article.mk li.itemText (purchasesFor lines num))
      | none, none => none := by
  induction lines with
  | nil =>
    intro m num
    cases h : findArt m num with
    | some a => simp [h, purchasesFor]
    | none => simp [h, purchasesFor]
  | cons li rest ih =>
    intro m num
    show findArt (rest.foldl insertLine (insertLine m li)) num = _
    rw [ih (insertLine m li) num]
    by_cases hnum : li.itemNumber = num
    · have hself := findArt_insertLine_self m li
      rw [hnum] at hself
      rw [hself]
      have hfilter : purchasesFor (li :: rest) num =
          toPurchase li :: purchasesFor rest num := by
        simp [purchasesFor, List.filter_cons, hnum]
      have hfind : (li :: rest).find? (fun l => l.itemNumber = num) = some li :=
        List.find?_cons_of_pos _ (by simp [hnum])
      cases h : findArt m num with
      | some a => simp [h, hfilter, hfind]
      | none => simp [h, hfilter, hfind]
    · rw [findArt_insertLine_ne m li num (fun hh => hnum hh.symm)]
      have hfilter : purchasesFor (li :: rest) num = purchasesFor rest num := by
        simp [purchasesFor, List.filter_cons, hnum]
      have hfind : (li :: rest).find? (fun l => l.itemNumber = num) =
          rest.find? (fun l => l.itemNumber = num) :=
        List.find?_cons_of_neg _ (by simp [hnum])
      rw [hfilter, hfind]

theorem keys_insertLine (m : List (String × Article)) (li : LineItem) :
    (insertLine m li).map Prod.fst =
      if li.itemNumber ∈ m.map Prod.fst then m.map Prod.fst
      else m.map Prod.fst ++ [li.itemNumber] := by
  have hany : (m.any (fun e => e.1 = li.itemNumber)) = true ↔
      li.itemNumber ∈ m.map Prod.fst := by
    simp [List.any_eq_true, List.mem_map]
  have hmapfst : ∀ m2 : List (String × Article),
      (m2.map (fun e => if e.1 = li.itemNumber
        then (e.1, Article.mk e.2.name
          (e.2.purchases ++ [Purchase.mk li.unitPrice li.total]))
        else e)).map Prod.fst = m2.map Prod.fst := by
    intro m2
    induction m2 with
    | nil => rfl
    | cons e es ih =>
      simp only [List.map_cons, ih]
      congr 1
      split <;> rfl
  show ((if m.any (fun e => e.1 = li.itemNumber) then m
      else m ++ [(li.itemNumber, Article.mk li.itemText [])]).map _).map Prod.fst = _
  by_cases hmem : li.itemNumber ∈ m.map Prod.fst
  · rw [if_pos (hany.mpr hmem), hmapfst, if_pos hmem]
  · rw [if_neg (fun hh => hmem (hany.mp hh)), hmapfst, if_neg hmem]
    simp

theorem nodup_keys_foldl (lines : List LineItem) :
    ∀ m : List (String × Article), (m.map Prod.fst).Nodup →
      ((lines.foldl insertLine m).map Prod.fst).Nodup := by
  induction lines with
  | nil =>
    intro m h
    exact h
  | cons li rest ih =>
    intro m h
    show ((rest.foldl insertLine (insertLine m li)).map Prod.fst).Nodup
    apply ih
    rw [keys_insertLine]
    split
    · exact h
    · rw [List.nodup_append]
      refine ⟨h, List.nodup_singleton _, ?_⟩
      intro x hx
      simp only [List.mem_singleton]
      intro hcon
      subst hcon
      exact absurd hx (by assumption)

theorem toFinset_keys_foldl (lines : List LineItem) :
    ∀ m : List (String × Article),
      ((lines.foldl insertLine m).map Prod.fst).toFinset =
        (m.map Prod.fst).toFinset ∪ (lines.map LineItem.itemNumber).toFinset := by
  induction lines with
  | nil =>
    intro m
    simp
  | cons li rest ih =>
    intro m
    show ((rest.foldl insertLine (insertLine m li)).map Prod.fst).toFinset = _
    rw [ih (insertLine m li)]
    have hkeys : ((insertLine m li).map Prod.fst).toFinset =
        insert li.itemNumber (m.map Prod.fst).toFinset := by
      rw [keys_insertLine]
      split
      · have hmem : li.itemNumber ∈ (m.map Prod.fst).toFinset := by
          rw [List.mem_toFinset]
          assumption
        rw [Finset.insert_eq_self.mpr hmem]
      · rw [List.toFinset_append, Finset.union_comm, Finset.insert_eq]
        congr 1
    rw [hkeys]
    ext x
    simp


theorem findArt_of_mem :
    ∀ m : List (String × Article), (m.map Prod.fst).Nodup →
      ∀ num art, (num, art) ∈ m → findArt m num = some art := by
  intro m
  induction m with
  | nil =>
    intro _ num art h
    exact absurd h (List.not_mem_nil _)
  | cons e es ih =>
    intro hnd num art h
    rcases List.mem_cons.mp h with rfl | hmem
    · simp [findArt, List.find?_cons_of_pos]
    · rw [List.map_cons] at hnd
      have hnd2 := List.nodup_cons.mp hnd
      have hne : ¬(e.1 = num) := by
        intro hcon
        apply hnd2.1
        rw [hcon]
        exact List.mem_map.mpr ⟨(num, art), hmem, rfl⟩
      have hrec := ih hnd2.2 num art hmem
      show ((e :: es).find? (fun x => x.1 = num)).map Prod.snd = some art
      simp only [List.find?_cons, hne, decide_eq_true_eq, if_false, cond_false]
      exact hrec


/-! ### Relating parse_receipts to the line-by-line fold -/

theorem ok_bind {ε α β : Type} (a : α) (f : α → Except ε β) :
    (Except.ok a >>= f) = f a := rfl

theorem error_bind {ε α β : Type} (e : ε) (f : α → Except ε β) :
    ((Except.error e : Except ε α) >>= f) = Except.error e := rfl

theorem extractAll_cons (it : RawItem) (rest : List RawItem) :
    extractAll (it :: rest) = (do
      let li ← extractLine it
      let ls ← extractAll rest
      pure (li :: ls)) := rfl

theorem extractAll_append (l1 l2 : List RawItem) :
    extractAll (l1 ++ l2) = (do
      let a ← extractAll l1
      let b ← extractAll l2
      pure (a ++ b)) := by
  induction l1 with
  | nil =>
    show extractAll l2 = _
    cases h : extractAll l2 with
    | error e => rfl
    | ok b => rfl
  | cons it l1 ih =>
    show (do
        let li ← extractLine it
        let ls ← extractAll (l1 ++ l2)
        pure (li :: ls)) = _
    rw [extractAll_cons, ih]
    cases h : extractLine it with
    | error e => rfl
    | ok li =>
      rw [ok_bind, ok_bind]
      cases h1 : extractAll l1 with
      | error e => rfl
      | ok a =>
        rw [ok_bind, ok_bind]
        cases h2 : extractAll l2 with
        | error e => rfl
        | ok b => rfl

theorem foldlM_items_eq (its : List RawItem) :
    ∀ m : List (String × Article),
    (its.foldlM (fun m it => do
        let li ← extractLine it
        pure (insertLine m li)) m : Except String (List (String × Article)))
      = (extractAll its).map (fun lines => lines.foldl insertLine m) := by
  induction its with
  | nil =>
    intro m
    rfl
  | cons it its ih =>
    intro m
    rw [List.foldlM_cons, extractAll_cons]
    cases h : extractLine it with
    | error e => rfl
    | ok li =>
      show (its.foldlM _ (insertLine m li) : Except String (List (String × Article))) = _
      rw [ih (insertLine m li)]
      cases h2 : extractAll its with
      | error e2 => rfl
      | ok lines => rfl

theorem parse_receipts_eq (data : List RawReceipt) :
    parse_receipts data =
      (extractAll (flattenItems data)).map (fun lines => lines.foldl insertLine []) := by
  suffices haux : ∀ m : List (String × Article),
      (data.foldlM (fun m receipt =>
          receipt.items.foldlM (fun m it => do
            let li ← extractLine it
            pure (insertLine m li)) m) m : Except String (List (String × Article)))
        = (extractAll (flattenItems data)).map
            (fun lines => lines.foldl insertLine m) from haux []
  induction data with
  | nil =>
    intro m
    rfl
  | cons r rest ih =>
    intro m
    have hflat : flattenItems (r :: rest) = r.items ++ flattenItems rest := by
      simp [flattenItems]
    rw [List.foldlM_cons, hflat, extractAll_append, foldlM_items_eq r.items m]
    cases h1 : extractAll r.items with
    | error e => rfl
    | ok lines1 =>
      show (rest.foldlM _ (lines1.foldl insertLine m) :
        Except String (List (String × Article))) = _
      rw [ih (lines1.foldl insertLine m)]
      cases h2 : extractAll (flattenItems rest) with
      | error e2 => rfl
      | ok lines2 =>
        show _ = Except.ok ((lines1 ++ lines2).foldl insertLine m)
        rw [List.foldl_append]
        rfl


theorem extractAll_ok_forall2 (its : List RawItem) :
    ∀ lines : List LineItem, extractAll its = Except.ok lines →
      List.Forall₂ extractOk its lines := by
  induction its with
  | nil =>
    intro lines h
    have hh : ([] : List LineItem) = lines := by
      injection h
    subst hh
    exact List.Forall₂.nil
  | cons it its ih =>
    intro lines h
    rw [extractAll_cons] at h
    cases h1 : extractLine it with
    | error e =>
      rw [h1, error_bind] at h
      exact absurd h (fun hh => Except.noConfusion hh)
    | ok li =>
      rw [h1, ok_bind] at h
      cases h2 : extractAll its with
      | error e2 =>
        rw [h2, error_bind] at h
        exact absurd h (fun hh => Except.noConfusion hh)
      | ok ls =>
        rw [h2, ok_bind] at h
        have hh : li :: ls = lines := by
          injection h
        subst hh
        exact List.Forall₂.cons h1 (ih ls h2)

theorem extractAll_first_error (its : List RawItem) :
    ∀ it : RawItem, its.find? failsExtract = some it →
      ∃ key, extractLine it = Except.error key ∧
        extractAll its = Except.error key := by
  induction its with
  | nil =>
    intro it h
    exact absurd h (by simp)
  | cons a as ih =>
    intro it h
    cases hfa : failsExtract a with
    | true =>
      rw [List.find?_cons_of_pos _ hfa] at h
      have hh : a = it := by injection h
      unfold failsExtract at hfa
      cases he : extractLine a with
      | error key =>
        refine ⟨key, hh ▸ he, ?_⟩
        rw [extractAll_cons, he, error_bind]
      | ok li =>
        rw [he] at hfa
        exact absurd hfa (by simp)
    | false =>
      rw [List.find?_cons_of_neg _ (by simp [hfa])] at h
      rcases ih it h with ⟨key, hkey, hall⟩
      refine ⟨key, hkey, ?_⟩
      unfold failsExtract at hfa
      cases he : extractLine a with
      | error e =>
        rw [he] at hfa
        exact absurd hfa (by simp)
      | ok la =>
        rw [extractAll_cons, he, ok_bind, hall, error_bind]

theorem extractLine_ok_fields {it : RawItem} {li : LineItem}
    (h : extractOk it li) :
    itemNumberOf it = some li.itemNumber ∧
      it.article.bind RawArticle.itemText = some li.itemText ∧
      it.unitPrice = some li.unitPrice ∧ it.total = some li.total := by
  unfold extractOk at h
  obtain ⟨artOpt, upOpt, totOpt⟩ := it
  cases artOpt with
  | none => exact absurd h (fun hh => Except.noConfusion hh)
  | some art =>
    obtain ⟨numOpt, txtOpt⟩ := art
    cases numOpt with
    | none => exact absurd h (fun hh => Except.noConfusion hh)
    | some num =>
      cases txtOpt with
      | none => exact absurd h (fun hh => Except.noConfusion hh)
      | some txt =>
        cases upOpt with
        | none => exact absurd h (fun hh => Except.noConfusion hh)
        | some up =>
          cases totOpt with
          | none => exact absurd h (fun hh => Except.noConfusion hh)
          | some tot =>
            have h2 : (Except.ok (LineItem.mk num txt up tot) :
                Except String LineItem) = Except.ok li := h
            have hh : LineItem.mk num txt up tot = li := by
              injection h2
            subst hh
            exact ⟨rfl, rfl, rfl, rfl⟩

theorem forall2_count {its : List RawItem} {lines : List LineItem}
    (h : List.Forall₂ extractOk its lines) (num : String) :
    (its.filter (fun it => itemNumberOf it = some num)).length =
      (lines.filter (fun li => li.itemNumber = num)).length := by
  induction h with
  | nil => rfl
  | cons hab htail ih =>
    rename_i a b as bs
    have hnum : itemNumberOf a = some b.itemNumber := (extractLine_ok_fields hab).1
    by_cases hb : b.itemNumber = num
    · have ha : itemNumberOf a = some num := by rw [hnum, hb]
      simp [List.filter_cons, ha, hb, ih]
    · have ha : ¬(itemNumberOf a = some num) := by
        rw [hnum]
        simp [hb]
      simp [List.filter_cons, ha, hb, ih]

theorem forall2_numbers {its : List RawItem} {lines : List LineItem}
    (h : List.Forall₂ extractOk its lines) :
    its.filterMap itemNumberOf = lines.map LineItem.itemNumber := by
  induction h with
  | nil => rfl
  | cons hab htail ih =>
    rename_i a b as bs
    have hnum : itemNumberOf a = some b.itemNumber := (extractLine_ok_fields hab).1
    simp only [List.filterMap_cons, hnum, List.map_cons, ih]

theorem forall2_unit_prices {its : List RawItem} {lines : List LineItem}
    (h : List.Forall₂ extractOk its lines) (num : String) :
    (its.filter (fun it => itemNumberOf it = some num)).filterMap
        (fun it => it.unitPrice.map toString) =
      (lines.filter (fun li => li.itemNumber = num)).map
        (fun li => toString li.unitPrice) := by
  induction h with
  | nil => rfl
  | cons hab htail ih =>
    rename_i a b as bs
    obtain ⟨hnum, _, hup, _⟩ := extractLine_ok_fields hab
    by_cases hb : b.itemNumber = num
    · have ha : itemNumberOf a = some num := by rw [hnum, hb]
      simp [List.filter_cons, ha, hb, List.filterMap_cons, hup, ih]
    · have ha : ¬(itemNumberOf a = some num) := by
        rw [hnum]
        simp [hb]
      simp [List.filter_cons, ha, hb, ih]

theorem forall2_find {its : List RawItem} {lines : List LineItem}
    (h : List.Forall₂ extractOk its lines) (num : String) :
    ∀ li : LineItem, lines.find? (fun li => li.itemNumber = num) = some li →
      ∃ it, its.find? (fun it => itemNumberOf it = some num) = some it ∧
        extractOk it li := by
  induction h with
  | nil =>
    intro li h
    exact absurd h (by simp)
  | cons hab htail ih =>
    rename_i a b as bs
    intro li hfind
    have hnum : itemNumberOf a = some b.itemNumber := (extractLine_ok_fields hab).1
    by_cases hb : b.itemNumber = num
    · rw [List.find?_cons_of_pos _ (by simp [hb])] at hfind
      injection hfind with hh
      subst hh
      refine ⟨a, ?_, hab⟩
      apply List.find?_cons_of_pos
      simp [hnum, hb]
    · rw [List.find?_cons_of_neg _ (by simp [hb])] at hfind
      rcases ih li hfind with ⟨it, hit, hok⟩
      refine ⟨it, ?_, hok⟩
      rw [List.find?_cons_of_neg _ (by simp [hnum, hb])]
      exact hit


/-! ### Consolidated facts about a successful parse -/

theorem parse_ok_destruct {data : List RawReceipt} {m : List (String × Article)}
    (hp : parse_receipts data = Except.ok m) :
    ∃ lines, extractAll (flattenItems data) = Except.ok lines ∧
      m = lines.foldl insertLine [] ∧
      List.Forall₂ extractOk (flattenItems data) lines := by
  rw [parse_receipts_eq] at hp
  cases h : extractAll (flattenItems data) with
  | error e =>
    rw [h] at hp
    exact absurd hp (fun hh => Except.noConfusion hh)
  | ok lines =>
    rw [h] at hp
    have hh : lines.foldl insertLine [] = m := by
      injection hp
    exact ⟨lines, rfl, hh.symm, extractAll_ok_forall2 _ lines h⟩

theorem parse_ok_article {data : List RawReceipt} {m : List (String × Article)}
    {num : String} {art : Article} (hp : parse_receipts data = Except.ok m)
    (hm : (num, art) ∈ m) :
    ∃ lines li0, extractAll (flattenItems data) = Except.ok lines ∧
      List.Forall₂ extractOk (flattenItems data) lines ∧
      lines.find? (fun li => li.itemNumber = num) = some li0 ∧
      art = Article.mk li0.itemText (purchasesFor lines num) := by
  obtain ⟨lines, hex, hmfold, hfa⟩ := parse_ok_destruct hp
  subst hmfold
  have hnd : (((lines.foldl insertLine []).map Prod.fst)).Nodup :=
    nodup_keys_foldl lines [] (by simp)
  have hart := findArt_of_mem _ hnd num art hm
  rw [findArt_foldl lines [] num] at hart
  have h0 : findArt ([] : List (String × Article)) num = none := rfl
  rw [h0] at hart
  cases hfind : lines.find? (fun li => li.itemNumber = num) with
  | none =>
    rw [hfind] at hart
    have : (none : Option Article) = some art := hart
    exact absurd this (fun hh => Option.noConfusion hh)
  | some li0 =>
    rw [hfind] at hart
    have h2 : some (Article.mk li0.itemText (purchasesFor lines num)) =
        some art := hart
    have h3 : Article.mk li0.itemText (purchasesFor lines num) = art := by
      injection h2
    exact ⟨lines, li0, hex, hfa, hfind, h3.symm⟩

/-! ### The claims -/

/-- C1: for every input sequence of receipts and every item of the resulting
aggregation map, the purchase_count of that item row equals the number of
item lines across all receipts whose article itemNumber equals that item
number: repeated lines are counted individually, never merged. -/
theorem c1_purchase_count (data : List RawReceipt)
    (m : List (String × Article)) (num : String) (art : Article)
    (hp : parse_receipts data = Except.ok m) (hm : (num, art) ∈ m) :
    (rowOf art).purchase_count = countLines data num := by
  obtain ⟨lines, li0, hex, hfa, hfind, hart⟩ := parse_ok_article hp hm
  subst hart
  show (purchasesFor lines num).length = countLines data num
  have h1 : (purchasesFor lines num).length =
      (lines.filter (fun li => li.itemNumber = num)).length := by
    simp [purchasesFor]
  rw [h1, countLines]
  exact (forall2_count hfa num).symm

/-- C1 witness: the two-receipt Milk scenario, item number A1. -/
theorem c1_purchase_count_witness :
    parse_receipts c2data = Except.ok c2map ∧ ("A1", milkArticle) ∈ c2map ∧
      (rowOf milkArticle).purchase_count = countLines c2data "A1" :=
  ⟨rfl, by decide,
    c1_purchase_count c2data c2map "A1" milkArticle rfl (by decide)⟩

/-- C2: on the two-receipt input of the spec (two Milk lines for item number
A1, prices 10 and 12), parse_receipts followed by list_of_purchases yields
exactly the single row (2, Milk, 22, "10, 12"). -/
theorem c2_two_receipt_scenario :
    report c2data = Except.ok [Row.mk 2 "Milk" 22 "10, 12"] := rfl

/-- C3: the number of rows equals the number of distinct itemNumber values
across all item lines of all receipts. -/
theorem c3_row_count (data : List RawReceipt) (m : List (String × Article))
    (hp : parse_receipts data = Except.ok m) :
    (list_of_purchases (m.map Prod.snd)).length =
      (distinctItemNumbers data).card := by
  obtain ⟨lines, hex, hmfold, hfa⟩ := parse_ok_destruct hp
  subst hmfold
  have hlen : (list_of_purchases ((lines.foldl insertLine []).map Prod.snd)).length =
      (lines.foldl insertLine []).length := by
    simp [list_of_purchases, length_pySorted]
  rw [hlen]
  have hnd : (((lines.foldl insertLine []).map Prod.fst)).Nodup :=
    nodup_keys_foldl lines [] (by simp)
  have hcard : (((lines.foldl insertLine []).map Prod.fst)).toFinset.card =
      (((lines.foldl insertLine []).map Prod.fst)).length :=
    List.toFinset_card_of_nodup hnd
  have hkeys := toFinset_keys_foldl lines []
  rw [distinctItemNumbers, forall2_numbers hfa]
  have : (lines.foldl insertLine []).length =
      (((lines.foldl insertLine []).map Prod.fst)).length := by
    simp
  rw [this, ← hcard, hkeys]
  simp

/-- C3 witness: the empty receipt list parses to the empty map and the
report has zero rows. -/
theorem c3_row_count_witness :
    parse_receipts [] = Except.ok [] ∧
      (list_of_purchases (([] : List (String × Article)).map Prod.snd)).length =
        (distinctItemNumbers []).card :=
  ⟨rfl, c3_row_count [] [] rfl⟩

/-- C5: the unit_prices field of an item row is the string forms of that
item purchase unit prices, in the order the lines arrived in the input,
joined with the separator comma-space. -/
theorem c5_unit_prices (data : List RawReceipt) (m : List (String × Article))
    (num : String) (art : Article) (hp : parse_receipts data = Except.ok m)
    (hm : (num, art) ∈ m) :
    (rowOf art).unit_prices =
      String.intercalate ", " (rawUnitPriceStrings data num) := by
  obtain ⟨lines, li0, hex, hfa, hfind, hart⟩ := parse_ok_article hp hm
  subst hart
  show String.intercalate ", "
      ((purchasesFor lines num).map (fun x => toString x.unit_price)) = _
  have h1 : (purchasesFor lines num).map (fun x => toString x.unit_price) =
      (lines.filter (fun li => li.itemNumber = num)).map
        (fun li => toString li.unitPrice) := by
    simp [purchasesFor, toPurchase, Function.comp]
  rw [h1, rawUnitPriceStrings, forall2_unit_prices hfa num]

/-- C5 witness: the two-receipt Milk scenario, item number A1. -/
theorem c5_unit_prices_witness :
    parse_receipts c2data = Except.ok c2map ∧ ("A1", milkArticle) ∈ c2map ∧
      (rowOf milkArticle).unit_prices =
        String.intercalate ", " (rawUnitPriceStrings c2data "A1") :=
  ⟨rfl, by decide, c5_unit_prices c2data c2map "A1" milkArticle rfl (by decide)⟩

/-- C6: the rows produced by list_of_purchases are ordered by item display
name ascending (the sort key is the Article value, whose comparison starts
with the name, so consecutive rows always carry nondecreasing names). -/
theorem c6_rows_sorted_by_name (articles : List Article) :
    (list_of_purchases articles).Pairwise
      (fun r1 r2 => r1.item_name ≤ r2.item_name) := by
  have hsorted : (pySorted articleLE articles).Pairwise
      (fun a b => articleLE a b = true) :=
    pairwise_pySorted articleLE_total (fun a b c => articleLE_trans) articles
  show ((pySorted articleLE articles).map rowOf).Pairwise
    (fun r1 r2 => r1.item_name ≤ r2.item_name)
  exact List.Pairwise.map rowOf (fun a b hab => articleLE_name_le hab) hsorted

/-- C8: the pipeline from receipts to rows is deterministic: equal inputs
give equal row sequences. -/
theorem c8_deterministic (data1 data2 : List RawReceipt) (h : data1 = data2) :
    report data1 = report data2 := by
  rw [h]

/-- C8 witness: two runs on the two-receipt scenario input coincide. -/
theorem c8_deterministic_witness : report c2data = report c2data :=
  c8_deterministic c2data c2data rfl

/-- C9: the display name stored for an item number is the itemText of the
first item line carrying that number; later lines cannot change it. -/
theorem c9_first_name_wins (data : List RawReceipt)
    (m : List (String × Article)) (num : String) (art : Article)
    (hp : parse_receipts data = Except.ok m) (hm : (num, art) ∈ m) :
    ∃ it a, (flattenItems data).find?
        (fun it => itemNumberOf it = some num) = some it ∧
      it.article = some a ∧ a.itemText = some art.name := by
  obtain ⟨lines, li0, hex, hfa, hfind, hart⟩ := parse_ok_article hp hm
  obtain ⟨it, hit, hok⟩ := forall2_find hfa num li0 hfind
  obtain ⟨hnum, htxt, hup, htot⟩ := extractLine_ok_fields hok
  obtain ⟨a, ha1, ha2⟩ := Option.bind_eq_some.mp htxt
  refine ⟨it, a, hit, ha1, ?_⟩
  rw [hart]
  exact ha2

/-- C9 witness: the two-receipt Milk scenario, item number A1. -/
theorem c9_first_name_wins_witness :
    parse_receipts c2data = Except.ok c2map ∧ ("A1", milkArticle) ∈ c2map ∧
      (∃ it a, (flattenItems c2data).find?
          (fun it => itemNumberOf it = some "A1") = some it ∧
        it.article = some a ∧ a.itemText = some milkArticle.name) :=
  ⟨rfl, by decide,
    c9_first_name_wins c2data c2map "A1" milkArticle rfl (by decide)⟩

/-- C10: a receipt whose items array is empty is accepted and contributes
nothing: removing it does not change the parse, and an input consisting
only of such receipts yields zero rows. -/
theorem c10_empty_receipts_ignored :
    (∀ pre post : List RawReceipt,
      parse_receipts (pre ++ RawReceipt.mk [] :: post) =
        parse_receipts (pre ++ post)) ∧
    (∀ n : Nat, report (List.replicate n (RawReceipt.mk [])) =
      Except.ok []) := by
  constructor
  · intro pre post
    rw [parse_receipts_eq, parse_receipts_eq]
    have hflat : flattenItems (pre ++ RawReceipt.mk [] :: post) =
        flattenItems (pre ++ post) := by
      simp [flattenItems]
    rw [hflat]
  · intro n
    have hflat : flattenItems (List.replicate n (RawReceipt.mk [])) = [] := by
      induction n with
      | zero => rfl
      | succ k ih =>
        rw [List.replicate_succ]
        have : flattenItems (RawReceipt.mk [] :: List.replicate k (RawReceipt.mk [])) =
            flattenItems (List.replicate k (RawReceipt.mk [])) := by
          simp [flattenItems]
        rw [this, ih]
    rw [report, parse_receipts_eq, hflat]
    rfl


/-- C7 counterexample: the claim says a malformed item line makes the
aggregation fail with a ParseError identifying the offending receipt index.
The code raises the bare KeyError of the missing key instead: the inputs
c7dataA and c7dataB hold the same malformed line in the receipt at index 0
and at index 1 respectively, yet the aggregation fails with the identical
error KeyError("unitPrice") on both, so the failure identifies no receipt
index (and no ParseError type exists in the program). -/
theorem c7_error_lacks_receipt_index :
    parse_receipts c7dataA = Except.error "unitPrice" ∧
      parse_receipts c7dataB = Except.error "unitPrice" ∧
      parse_receipts c7dataA = parse_receipts c7dataB ∧
      report c7dataA = report c7dataB :=
  ⟨rfl, rfl, rfl, rfl⟩

/-- C7 amended: if any receipt contains an item line with a missing required
field, the aggregation fails with the KeyError naming the first missing
field of the first malformed line, the whole aggregation aborts with no
partial result, and no report output is produced. -/
theorem c7_amended_keyerror_aborts (data : List RawReceipt) (it : RawItem)
    (h : (flattenItems data).find? failsExtract = some it) :
    ∃ key, extractLine it = Except.error key ∧
      parse_receipts data = Except.error key ∧
      report data = Except.error key := by
  obtain ⟨key, hkey, hall⟩ := extractAll_first_error (flattenItems data) it h
  refine ⟨key, hkey, ?_, ?_⟩
  · rw [parse_receipts_eq, hall]
    rfl
  · rw [report, parse_receipts_eq, hall]
    rfl

/-- C7 amended witness: the input whose malformed line (missing unitPrice)
sits in the second receipt. -/
theorem c7_amended_keyerror_aborts_witness :
    (flattenItems c7dataB).find? failsExtract = some badItem ∧
      (∃ key, extractLine badItem = Except.error key ∧
        parse_receipts c7dataB = Except.error key ∧
        report c7dataB = Except.error key) :=
  ⟨rfl, c7_amended_keyerror_aborts c7dataB badItem rfl⟩

end CityGross
